import Mathlib

/-!
Verification development for the tiniest_fsm engine (include/tiniestfsm.h).

Shallow embedding notes.
C++ types are modelled by numeric identifiers (`TypeId`); `std::is_same_v`
becomes equality of identifiers.  The compile-time facts of a concrete
instantiation — the declared State-Set (the `States...` pack), which
(state, event) pairs satisfy `has_handler_v`, and which states have an
`enter` member — are collected in an `FSMSpec` record.  The runtime object
`StateMachine` is modelled by `Machine`: the field `m_currentState` and the
tuple `m_states` (one observable data value per state instance).

Handlers and enter hooks are user code outside the engine; they are
modelled as arbitrary machine transformers `H : TypeId → Event → Machine →
Machine` (the handler receives the host pointer — i.e. the whole machine —
and the event value) and `E : TypeId → Machine → Machine`.  Each engine
operation returns, besides the resulting machine, the list of user
subroutine calls it performs directly (`Call.handle s ev` records that the
engine invoked state s's handle member passing event ev; `Call.enter s`
records an enter-hook invocation), so that "invokes exactly once, passing
the event" is a statement about that list.

Reaching `__builtin_unreachable()` (or an out-of-bounds table read) is
undefined behaviour and is modelled as `none` of an `Option` result.
-/

namespace tiniest_fsm

/-- A C++ type is identified by a numeric id; `std::is_same_v` is `==`. -/
abbrev TypeId := Nat

/-- `details::elem_in_list_v<Elem, List...> = (false || ... || std::is_same_v<Elem, List>)`,
a left fold of `||` over the pack. -/
def elem_in_list_v (Elem : TypeId) (L : List TypeId) : Bool :=
  L.foldl (fun acc t => acc || (Elem == t)) false

/-- `details::count_in_list_v<Elem, List...> = (0u + ... + std::is_same_v<Elem, List>)`,
a left fold of `+` over the pack, each `is_same` contributing 0 or 1. -/
def count_in_list_v (Elem : TypeId) (L : List TypeId) : Nat :=
  L.foldl (fun acc t => acc + (if Elem == t then 1 else 0)) 0

/-- `details::are_distinct_v<Ts...> = (true && ... && (count_in_list_v<Ts, Ts...> == 1))`:
for every member of the pack, its count in the whole pack is 1. -/
def are_distinct_v (Ts : List TypeId) : Bool :=
  Ts.foldl (fun acc t => acc && (count_in_list_v t Ts == 1)) true

/-- An event value: its static type (which alone drives dispatch) and its payload. -/
structure Event where
  etype : TypeId
  payload : Nat
deriving DecidableEq, Repr

/-- The compile-time data of one `StateMachine<Derived, std::tuple<States...>>`
instantiation: the ordered State-Set, and the capability probes
`has_handler_v<State, Event>` and the `requires` probe for `State::enter`. -/
structure FSMSpec where
  States : List TypeId
  hasHandler : TypeId → TypeId → Bool
  hasEnter : TypeId → Bool

/-- The runtime part of the `StateMachine` object: `m_currentState` and the
tuple `m_states`, abstracted as one observable data value per state instance
(position i holds the data of the instance of the i-th state type). -/
structure Machine where
  m_currentState : Nat
  m_states : List Nat
deriving DecidableEq, Repr

/-- A user subroutine call performed directly by an engine operation. -/
inductive Call where
  | handle (state : TypeId) (ev : Event)
  | enter (state : TypeId)
deriving DecidableEq, Repr

/-- Semantics of user handler bodies: given the state whose `handle` is called,
the event and the host machine, the machine when the handler returns.  The
handler may call back into the engine (nested `enterState`/`process`), so it
is an arbitrary transformer. -/
abbrev HandlerSem := TypeId → Event → Machine → Machine

/-- Semantics of user enter-hook bodies. -/
abbrev EnterSem := TypeId → Machine → Machine

/-- `getStateIndex<State>()`: builds `isIt = { is_same_v<State, States>... }` and
returns `distance(begin, find(isIt, true))` — the first index whose entry
matches, or the length when absent. -/
def getStateIndex (spec : FSMSpec) (S : TypeId) : Nat :=
  spec.States.findIdx (fun t => S == t)

/-- `currentStateId()`: pure accessor of `m_currentState`. -/
def currentStateId (m : Machine) : Nat :=
  m.m_currentState

/-- `getState<State>()`: `std::get<State>(m_states)` — the instance sitting at
the (unique, under distinctness) position of `State` in the tuple. -/
def getState (spec : FSMSpec) (m : Machine) (S : TypeId) : Nat :=
  m.m_states.getD (getStateIndex spec S) 0

/-- `processFromState<State, Event>`: if `has_handler_v<State, Event>`, call
`std::get<State>(m_states).handle(fsm(), ev)`; otherwise do nothing. -/
def processFromState (spec : FSMSpec) (H : HandlerSem) (S : TypeId) (ev : Event)
    (m : Machine) : Machine × List Call :=
  if spec.hasHandler S ev.etype then (H S ev m, [Call.handle S ev]) else (m, [])

/-- `processFromIndex<StateIndex, Event>`: resolve the index to
`std::tuple_element_t<StateIndex, std::tuple<States...>>` and defer to
`processFromState`. -/
def processFromIndex (spec : FSMSpec) (H : HandlerSem) (i : Nat) (ev : Event)
    (m : Machine) : Machine × List Call :=
  processFromState spec H (spec.States.getD i 0) ev m

/-- The number of `case` labels the `_TINIEST_FSM_DISPATCH` macros emit: the
`if constexpr` ladder in `process` picks 4, 16, 64 or 256. -/
def paddedSize (n : Nat) : Nat :=
  if n ≤ 4 then 4 else if n ≤ 16 then 16 else if n ≤ 64 then 64 else 256

/-- The bounded-switch strategy (`_TINIEST_FSM_DISPATCH_IMPL`): `switch` on
`m_currentState` with `paddedSize` cases; case i runs `processFromIndex<i>`
when `i < s_nStates` and falls into `__builtin_unreachable()` otherwise; the
`default` branch is `__builtin_unreachable()`.  UB is `none`. -/
def processSwitch (spec : FSMSpec) (H : HandlerSem) (ev : Event)
    (m : Machine) : Option (Machine × List Call) :=
  if m.m_currentState < paddedSize spec.States.length then
    if m.m_currentState < spec.States.length then
      some (processFromIndex spec H m.m_currentState ev m)
    else none
  else none

/-- The function-pointer table `f` of the large-N branch of `process`: entry i
is `&processFromState<States_i, Event>` when `has_handler_v<States_i, Event>`
and `nullptr` otherwise; the entry records which state's member it points to. -/
def dispatchTable (spec : FSMSpec) (etype : TypeId) : List (Option TypeId) :=
  spec.States.map (fun S => if spec.hasHandler S etype then some S else none)

/-- The table strategy: read `f[m_currentState]` (out of bounds is UB, `none`)
and invoke the entry if it is not null. -/
def processTable (spec : FSMSpec) (H : HandlerSem) (ev : Event)
    (m : Machine) : Option (Machine × List Call) :=
  match (dispatchTable spec ev.etype).get? m.m_currentState with
  | none => none
  | some none => some (m, [])
  | some (some S) => some (processFromState spec H S ev m)

/-- `process<Event>(ev)`: the `if constexpr` ladder uses the bounded-switch
strategy when `s_nStates <= 256` and the function-pointer table otherwise. -/
def process (spec : FSMSpec) (H : HandlerSem) (ev : Event)
    (m : Machine) : Option (Machine × List Call) :=
  if spec.States.length ≤ 256 then processSwitch spec H ev m
  else processTable spec H ev m

/-- `enterState<NewState>()`: set `m_currentState := getStateIndex<NewState>()`,
then, if the `requires` probe finds `NewState::enter`, invoke it on the
updated machine. -/
def enterState (spec : FSMSpec) (E : EnterSem) (NewState : TypeId)
    (m : Machine) : Machine × List Call :=
  let m1 : Machine := { m with m_currentState := getStateIndex spec NewState }
  if spec.hasEnter NewState then (E NewState m1, [Call.enter NewState]) else (m1, [])

/-! ## Helper lemmas -/

theorem beq_symm_nat (a b : Nat) : (a == b) = (b == a) := by
  by_cases h : a = b
  · subst h; rfl
  · simp [h, Ne.symm h]

theorem foldl_or_eq (f : TypeId → Bool) (L : List TypeId) (b : Bool) :
    L.foldl (fun acc t => acc || f t) b = (b || L.any f) := by
  induction L generalizing b with
  | nil => simp
  | cons x xs ih => simp [List.foldl_cons, ih, Bool.or_assoc]

theorem elem_in_list_iff_mem (e : TypeId) (L : List TypeId) :
    elem_in_list_v e L = true ↔ e ∈ L := by
  unfold elem_in_list_v
  rw [foldl_or_eq]
  simp only [Bool.false_or, List.any_eq_true, beq_iff_eq]
  constructor
  · rintro ⟨t, ht, rfl⟩; exact ht
  · intro h; exact ⟨e, h, rfl⟩

theorem foldl_add_eq (e : TypeId) (L : List TypeId) (k : Nat) :
    L.foldl (fun acc t => acc + (if e == t then 1 else 0)) k = k + L.count e := by
  induction L generalizing k with
  | nil => simp
  | cons x xs ih =>
      rw [List.foldl_cons, ih, List.count_cons, beq_symm_nat]
      by_cases h : e == x <;> simp [h] <;> omega

theorem count_in_list_eq_count (e : TypeId) (L : List TypeId) :
    count_in_list_v e L = L.count e := by
  unfold count_in_list_v
  rw [foldl_add_eq]
  omega

theorem foldl_and_eq (f : TypeId → Bool) (L : List TypeId) (b : Bool) :
    L.foldl (fun acc t => acc && f t) b = (b && L.all f) := by
  induction L generalizing b with
  | nil => simp
  | cons x xs ih => simp [List.foldl_cons, ih, Bool.and_assoc]

theorem are_distinct_iff (L : List TypeId) :
    are_distinct_v L = true ↔ ∀ t ∈ L, L.count t = 1 := by
  unfold are_distinct_v
  rw [foldl_and_eq]
  simp only [Bool.true_and, List.all_eq_true]
  constructor
  · intro h t ht
    have h2 := h t ht
    rw [count_in_list_eq_count] at h2
    simpa using h2
  · intro h t ht
    rw [count_in_list_eq_count]
    simp [h t ht]

theorem are_distinct_nodup {L : List TypeId} (h : are_distinct_v L = true) :
    L.Nodup := by
  rw [are_distinct_iff] at h
  rw [List.nodup_iff_count_le_one]
  intro a
  by_cases ha : a ∈ L
  · exact Nat.le_of_eq (h a ha)
  · simp [List.count_eq_zero_of_not_mem ha]

theorem findIdx_lt_length_of_mem {S : TypeId} {L : List TypeId} (h : S ∈ L) :
    L.findIdx (fun t => S == t) < L.length := by
  induction L with
  | nil => cases h
  | cons x xs ih =>
      rw [List.findIdx_cons]
      by_cases hx : S = x
      · simp [hx]
      · have hmem : S ∈ xs := by
          cases h with
          | head => exact absurd rfl hx
          | tail _ h2 => exact h2
        have hbeq : (S == x) = false := by simp [hx]
        rw [hbeq]
        simp only [cond_false, List.length_cons]
        exact Nat.succ_lt_succ (ih hmem)

theorem getD_findIdx_of_mem {S : TypeId} {L : List TypeId} (h : S ∈ L) :
    L.getD (L.findIdx (fun t => S == t)) 0 = S := by
  induction L with
  | nil => cases h
  | cons x xs ih =>
      rw [List.findIdx_cons]
      by_cases hx : S = x
      · simp [hx]
      · have hmem : S ∈ xs := by
          cases h with
          | head => exact absurd rfl hx
          | tail _ h2 => exact h2
        have hbeq : (S == x) = false := by simp [hx]
        rw [hbeq]
        simp only [cond_false, List.getD_cons_succ]
        exact ih hmem

theorem findIdx_getD_of_nodup {L : List TypeId} (hnd : L.Nodup) :
    ∀ i, i < L.length → L.findIdx (fun t => L.getD i 0 == t) = i := by
  induction L with
  | nil => intro i hi; simp at hi
  | cons x xs ih =>
      intro i hi
      match i with
      | 0 => simp [List.findIdx_cons]
      | Nat.succ j =>
          have hj : j < xs.length := by simpa [List.length_cons, Nat.succ_lt_succ_iff] using hi
          have hx : x ∉ xs := (List.nodup_cons.mp hnd).1
          have hmem : xs.getD j 0 ∈ xs := by
            rw [List.getD_eq_getElem xs 0 hj]
            exact List.getElem_mem hj
          have hne : xs.getD j 0 ≠ x := fun hEq => hx (hEq ▸ hmem)
          have hbeq : (xs.getD j 0 == x) = false := by
            rw [beq_eq_false_iff_ne]; exact hne
          rw [List.findIdx_cons]
          simp only [List.getD_cons_succ, hbeq, cond_false]
          rw [ih (List.nodup_cons.mp hnd).2 j hj]

theorem le_paddedSize {n : Nat} (h : n ≤ 256) : n ≤ paddedSize n := by
  unfold paddedSize
  split_ifs <;> omega

/-- The switch strategy on an in-range index (with the padding that the
`n <= 256` regime guarantees) runs exactly the per-index dispatch step. -/
theorem processSwitch_eq_of_lt (spec : FSMSpec) (H : HandlerSem) (ev : Event)
    (m : Machine) (h256 : spec.States.length ≤ 256)
    (h : m.m_currentState < spec.States.length) :
    processSwitch spec H ev m
      = some (processFromIndex spec H m.m_currentState ev m) := by
  have hp : m.m_currentState < paddedSize spec.States.length :=
    Nat.lt_of_lt_of_le h (le_paddedSize h256)
  unfold processSwitch
  rw [if_pos hp, if_pos h]

/-- The switch strategy on an out-of-range index reaches an
`__builtin_unreachable()` branch. -/
theorem processSwitch_eq_none (spec : FSMSpec) (H : HandlerSem) (ev : Event)
    (m : Machine) (h : ¬ m.m_currentState < spec.States.length) :
    processSwitch spec H ev m = none := by
  unfold processSwitch
  by_cases h1 : m.m_currentState < paddedSize spec.States.length
  · rw [if_pos h1, if_neg h]
  · rw [if_neg h1]

/-- The table strategy on an in-range index runs exactly the per-index
dispatch step. -/
theorem processTable_eq_of_lt (spec : FSMSpec) (H : HandlerSem) (ev : Event)
    (m : Machine) (h : m.m_currentState < spec.States.length) :
    processTable spec H ev m
      = some (processFromIndex spec H m.m_currentState ev m) := by
  have hlen : m.m_currentState < (dispatchTable spec ev.etype).length := by
    simpa [dispatchTable] using h
  have hentry : (dispatchTable spec ev.etype).get? m.m_currentState
      = some (if spec.hasHandler (spec.States.getD m.m_currentState 0) ev.etype
              then some (spec.States.getD m.m_currentState 0) else none) := by
    rw [List.get?_eq_getElem?, List.getElem?_eq_getElem hlen]
    simp only [dispatchTable, List.getElem_map]
    rw [List.getD_eq_getElem spec.States 0 h]
  unfold processTable
  rw [hentry]
  by_cases hh : spec.hasHandler (spec.States.getD m.m_currentState 0) ev.etype
  · rw [if_pos hh]
    rfl
  · rw [if_neg hh]
    unfold processFromIndex processFromState
    rw [if_neg hh]

/-- The table strategy on an out-of-range index reads `f` out of bounds. -/
theorem processTable_eq_none (spec : FSMSpec) (H : HandlerSem) (ev : Event)
    (m : Machine) (h : ¬ m.m_currentState < spec.States.length) :
    processTable spec H ev m = none := by
  have hlen : (dispatchTable spec ev.etype).length ≤ m.m_currentState := by
    simp only [dispatchTable, List.length_map]
    omega
  unfold processTable
  rw [List.get?_eq_getElem?, List.getElem?_eq_none hlen]

/-- Whichever strategy the `if constexpr` ladder picks, `process` on an
in-range index reduces to `processFromState` of the active state type. -/
theorem process_eq_processFromState (spec : FSMSpec) (H : HandlerSem) (ev : Event)
    (m : Machine) (h : m.m_currentState < spec.States.length) :
    process spec H ev m
      = some (processFromState spec H (spec.States.getD m.m_currentState 0) ev m) := by
  unfold process
  by_cases h256 : spec.States.length ≤ 256
  · rw [if_pos h256, processSwitch_eq_of_lt spec H ev m h256 h]
    rfl
  · rw [if_neg h256, processTable_eq_of_lt spec H ev m h]
    rfl

/-- The machine `enterState` returns: index set to the target's ordinal, then
the enter hook (if any) applied on top. -/
theorem enterState_fst (spec : FSMSpec) (E : EnterSem) (x : TypeId) (m : Machine) :
    (enterState spec E x m).1
      = if spec.hasEnter x
        then E x { m with m_currentState := getStateIndex spec x }
        else { m with m_currentState := getStateIndex spec x } := by
  unfold enterState
  by_cases he : spec.hasEnter x <;> simp [he]

/-- The calls `enterState` makes directly: the target's enter hook or nothing. -/
theorem enterState_snd (spec : FSMSpec) (E : EnterSem) (x : TypeId) (m : Machine) :
    (enterState spec E x m).2
      = if spec.hasEnter x then [Call.enter x] else [] := by
  unfold enterState
  by_cases he : spec.hasEnter x <;> simp [he]

/-! ## Concrete fixtures, used by the witnesses

A three-state machine in the style of the door example: state 10 handles
event type 5, the other states handle nothing, no state has an enter hook. -/

def exSpec : FSMSpec :=
  { States := [10, 20, 30]
    hasHandler := fun s e => s == 10 && e == 5
    hasEnter := fun _ => false }

def exH : HandlerSem := fun _ _ m => { m with m_states := [1, 0, 0] }

def exE : EnterSem := fun _ m => m

def exEv : Event := { etype := 5, payload := 77 }

def exM : Machine := { m_currentState := 0, m_states := [0, 0, 0] }

def exM1 : Machine := { m_currentState := 1, m_states := [0, 0, 0] }

/-! ## C9 -/

/-- C9: the type-list predicates meet their reference definitions:
`elem_in_list_v` is membership, `count_in_list_v` is the number of equal
entries, and `are_distinct_v` says every entry occurs exactly once. -/
theorem claim9_typelist_predicates (Elem : TypeId) (L : List TypeId) :
    (elem_in_list_v Elem L = true ↔ Elem ∈ L) ∧
    count_in_list_v Elem L = L.count Elem ∧
    (are_distinct_v L = true ↔ ∀ t ∈ L, L.count t = 1) :=
  ⟨elem_in_list_iff_mem Elem L, count_in_list_eq_count Elem L, are_distinct_iff L⟩

/-- C9 witness at concrete lists. -/
theorem claim9_witness :
    (elem_in_list_v 3 [1, 3] = true ↔ 3 ∈ [1, 3]) ∧
    count_in_list_v 3 [1, 3] = List.count 3 [1, 3] ∧
    (are_distinct_v [1, 3] = true ↔ ∀ t ∈ [1, 3], List.count t [1, 3] = 1) :=
  claim9_typelist_predicates 3 [1, 3]

/-! ## C10 -/

/-- C10: in a duplicate-free State-Set the type-to-index map `getStateIndex`
and the index-to-type map (position lookup, as `processFromIndex` performs via
`tuple_element_t`) are mutually inverse: `getStateIndex S` is in range, the
entry there is `S` and is the only entry equal to `S`, every in-range index
round-trips, and the dispatch step for index `getStateIndex S` is exactly the
dispatch step of state `S` itself. -/
theorem claim10_index_type_roundtrip (spec : FSMSpec) (S : TypeId) (H : HandlerSem)
    (ev : Event) (m : Machine)
    (hd : are_distinct_v spec.States = true)
    (hs : elem_in_list_v S spec.States = true) :
    getStateIndex spec S < spec.States.length ∧
    spec.States.getD (getStateIndex spec S) 0 = S ∧
    (∀ i, i < spec.States.length → getStateIndex spec (spec.States.getD i 0) = i) ∧
    (∀ j, j < spec.States.length → spec.States.getD j 0 = S → j = getStateIndex spec S) ∧
    processFromIndex spec H (getStateIndex spec S) ev m = processFromState spec H S ev m := by
  have hmem : S ∈ spec.States := (elem_in_list_iff_mem S spec.States).mp hs
  have hnd : spec.States.Nodup := are_distinct_nodup hd
  have h0 : getStateIndex spec S < spec.States.length := by
    unfold getStateIndex
    exact findIdx_lt_length_of_mem hmem
  have h1 : spec.States.getD (getStateIndex spec S) 0 = S := by
    unfold getStateIndex
    exact getD_findIdx_of_mem hmem
  have h2 : ∀ i, i < spec.States.length → getStateIndex spec (spec.States.getD i 0) = i := by
    intro i hi
    unfold getStateIndex
    exact findIdx_getD_of_nodup hnd i hi
  refine ⟨h0, h1, h2, ?_, ?_⟩
  · intro j hj hjS
    have := h2 j hj
    rw [hjS] at this
    exact this.symm
  · unfold processFromIndex
    rw [h1]

/-- C10 witness at the concrete fixture. -/
theorem claim10_witness :
    getStateIndex exSpec 20 < exSpec.States.length ∧
    exSpec.States.getD (getStateIndex exSpec 20) 0 = 20 ∧
    (∀ i, i < exSpec.States.length → getStateIndex exSpec (exSpec.States.getD i 0) = i) ∧
    (∀ j, j < exSpec.States.length → exSpec.States.getD j 0 = 20 → j = getStateIndex exSpec 20) ∧
    processFromIndex exSpec exH (getStateIndex exSpec 20) exEv exM
      = processFromState exSpec exH 20 exEv exM :=
  claim10_index_type_roundtrip exSpec 20 exH exEv exM (by decide) (by decide)

/-! ## C5 -/

/-- C5: `enterState<X>()` invokes X's enter hook exactly once if X declares
one and zero times otherwise; it invokes no enter hook of any other state and
no handler (in particular nothing of the previous state on exit). -/
theorem claim5_enter_hook_calls (spec : FSMSpec) (E : EnterSem) (x : TypeId)
    (m : Machine) (hx : elem_in_list_v x spec.States = true) :
    (spec.hasEnter x = true → (enterState spec E x m).2 = [Call.enter x]) ∧
    (spec.hasEnter x = false → (enterState spec E x m).2 = []) ∧
    (∀ s, Call.enter s ∈ (enterState spec E x m).2 → s = x) ∧
    (∀ s e, Call.handle s e ∉ (enterState spec E x m).2) := by
  rw [enterState_snd]
  by_cases he : spec.hasEnter x
  · rw [if_pos he]
    refine ⟨fun _ => rfl, ?_, ?_, ?_⟩
    · intro hf
      rw [he] at hf
      cases hf
    · intro s hs
      rw [List.mem_singleton] at hs
      injection hs
    · intro s e hs
      rw [List.mem_singleton] at hs
      exact Call.noConfusion hs
  · have hf : spec.hasEnter x = false := by
      cases hb : spec.hasEnter x
      · rfl
      · exact absurd hb he
    rw [if_neg he]
    refine ⟨?_, fun _ => rfl, ?_, ?_⟩
    · intro ht
      rw [ht] at hf
      cases hf
    · intro s hs
      cases hs
    · intro s e hs
      cases hs

/-- C5 witness: a state with no enter hook. -/
theorem claim5_witness :
    (exSpec.hasEnter 20 = true → (enterState exSpec exE 20 exM).2 = [Call.enter 20]) ∧
    (exSpec.hasEnter 20 = false → (enterState exSpec exE 20 exM).2 = []) ∧
    (∀ s, Call.enter s ∈ (enterState exSpec exE 20 exM).2 → s = 20) ∧
    (∀ s e, Call.handle s e ∉ (enterState exSpec exE 20 exM).2) :=
  claim5_enter_hook_calls exSpec exE 20 exM (by decide)

/-! ## C2 (corrected)

The claim asserts that `currentStateId()` right after `enterState<X>()` is
X's ordinal *including the case where X's enter hook itself performs further
transitions*.  The code sets `m_currentState` first and then runs X's enter
hook, so a hook that transitions further leaves the index at the ordinal of
the state entered last, not X's.  The fixture below is a two-state set
{10, 20} where state 10's enter hook calls `enterState<20>`. -/

def cexSpec : FSMSpec :=
  { States := [10, 20]
    hasHandler := fun _ _ => false
    hasEnter := fun t => t == 10 }

/-- State 10's enter hook body: it calls `enterState<20>()` on the host
(state 20 has no enter hook, so its hook semantics is irrelevant). -/
def cexHook : EnterSem := fun _ m => (enterState cexSpec (fun _ m2 => m2) 20 m).1

def cexM : Machine := { m_currentState := 1, m_states := [0, 0] }

/-- C2 counterexample: in the valid two-state set {10, 20}, state 10 (ordinal
0) has an enter hook that itself calls `enterState<20>`; immediately after
`enterState<10>()` the current-state id is 1, the ordinal of state 20, not
the ordinal 0 of state 10. -/
theorem claim2_counterexample :
    are_distinct_v cexSpec.States = true ∧
    elem_in_list_v 10 cexSpec.States = true ∧
    cexSpec.hasEnter 10 = true ∧
    getStateIndex cexSpec 10 = 0 ∧
    currentStateId (enterState cexSpec cexHook 10 cexM).1 = 1 ∧
    (1 : Nat) ≠ 0 := by decide

/-- C2 (amended): `currentStateId()` immediately after `enterState<X>()`
equals X's ordinal provided X's enter hook, if declared, leaves the
current-state index where `enterState` set it (in particular whenever X has
no enter hook or its hook performs no further transition). -/
theorem claim2_current_after_enter (spec : FSMSpec) (E : EnterSem) (x : TypeId)
    (m : Machine)
    (hE : spec.hasEnter x = true →
      (E x { m with m_currentState := getStateIndex spec x }).m_currentState
        = getStateIndex spec x) :
    currentStateId (enterState spec E x m).1 = getStateIndex spec x := by
  unfold currentStateId
  rw [enterState_fst]
  by_cases he : spec.hasEnter x
  · rw [if_pos he]
    exact hE he
  · rw [if_neg he]

/-- C2 witness: entering hookless state 20 of the fixture lands on ordinal 1. -/
theorem claim2_witness :
    currentStateId (enterState exSpec exE 20 exM).1 = getStateIndex exSpec 20 :=
  claim2_current_after_enter exSpec exE 20 exM (by decide)

/-! ## C1 -/

/-- C1: with S the active state (the entry at the current-state index),
`process(ev)` invokes S's handle operation exactly once, synchronously before
returning and passing the event value, iff `hasHandler(S, E)` holds; it
performs no call and leaves the machine untouched otherwise, and it never
invokes a handler of any state other than S. -/
theorem claim1_dispatch_iff_hasHandler (spec : FSMSpec) (H : HandlerSem) (ev : Event)
    (m : Machine) (S : TypeId)
    (h : m.m_currentState < spec.States.length)
    (hS : spec.States.getD m.m_currentState 0 = S) :
    ∃ m2 tr, process spec H ev m = some (m2, tr) ∧
      (spec.hasHandler S ev.etype = true →
        tr = [Call.handle S ev] ∧ m2 = H S ev m) ∧
      (spec.hasHandler S ev.etype = false → tr = [] ∧ m2 = m) ∧
      (∀ s e, Call.handle s e ∈ tr → s = S ∧ e = ev) := by
  subst hS
  rw [process_eq_processFromState spec H ev m h]
  by_cases hh : spec.hasHandler (spec.States.getD m.m_currentState 0) ev.etype
  · refine ⟨H (spec.States.getD m.m_currentState 0) ev m,
      [Call.handle (spec.States.getD m.m_currentState 0) ev], ?_, ?_, ?_, ?_⟩
    · unfold processFromState
      rw [if_pos hh]
    · intro _
      exact ⟨rfl, rfl⟩
    · intro hf
      rw [hh] at hf
      cases hf
    · intro s e hs
      rw [List.mem_singleton] at hs
      injection hs with h1 h2
      exact ⟨h1, h2⟩
  · refine ⟨m, [], ?_, ?_, ?_, ?_⟩
    · unfold processFromState
      rw [if_neg hh]
    · intro ht
      exact absurd ht hh
    · intro _
      exact ⟨rfl, rfl⟩
    · intro s e hs
      cases hs

/-- C1 witness: in the fixture, state 10 is active and handles event type 5. -/
theorem claim1_witness :
    ∃ m2 tr, process exSpec exH exEv exM = some (m2, tr) ∧
      (exSpec.hasHandler 10 exEv.etype = true →
        tr = [Call.handle 10 exEv] ∧ m2 = exH 10 exEv exM) ∧
      (exSpec.hasHandler 10 exEv.etype = false → tr = [] ∧ m2 = exM) ∧
      (∀ s e, Call.handle s e ∈ tr → s = 10 ∧ e = exEv) :=
  claim1_dispatch_iff_hasHandler exSpec exH exEv exM 10 (by decide) (by decide)

/-! ## C3 -/

/-- C3: when the active state has no handler for the event, `process` fully
completes with no effect: the returned machine is the input machine itself,
so the current-state id and every state instance's data are unchanged, and no
user call is made. -/
theorem claim3_unmatched_is_noop (spec : FSMSpec) (H : HandlerSem) (ev : Event)
    (m : Machine)
    (h : m.m_currentState < spec.States.length)
    (hno : spec.hasHandler (spec.States.getD m.m_currentState 0) ev.etype = false) :
    process spec H ev m = some (m, []) ∧
    ∀ m2 tr, process spec H ev m = some (m2, tr) →
      currentStateId m2 = currentStateId m ∧ m2.m_states = m.m_states := by
  have hne : ¬ spec.hasHandler (spec.States.getD m.m_currentState 0) ev.etype = true := by
    rw [hno]
    exact Bool.false_ne_true
  have heq : process spec H ev m = some (m, []) := by
    rw [process_eq_processFromState spec H ev m h]
    unfold processFromState
    rw [if_neg hne]
  refine ⟨heq, ?_⟩
  intro m2 tr h2
  rw [heq] at h2
  have h3 := Option.some.inj h2
  injection h3 with h4 h5
  subst h4
  exact ⟨rfl, rfl⟩

/-- C3 witness: state 20 is active in the fixture and handles nothing. -/
theorem claim3_witness :
    process exSpec exH exEv exM1 = some (exM1, []) ∧
    ∀ m2 tr, process exSpec exH exEv exM1 = some (m2, tr) →
      currentStateId m2 = currentStateId exM1 ∧ m2.m_states = exM1.m_states :=
  claim3_unmatched_is_noop exSpec exH exEv exM1 (by decide) (by decide)

/-! ## C6 -/

/-- C6: if the handler `process` invokes leaves the current-state index at
Y's ordinal (for instance because its last transition is `enterState<Y>()`),
then by the time `process` returns the machine is in state Y: the nested
transition runs synchronously and `process` does not write the index
afterwards. -/
theorem claim6_handler_transition_sticks (spec : FSMSpec) (H : HandlerSem)
    (ev : Event) (m : Machine) (y S : TypeId)
    (h : m.m_currentState < spec.States.length)
    (hS : spec.States.getD m.m_currentState 0 = S)
    (hh : spec.hasHandler S ev.etype = true)
    (hy : (H S ev m).m_currentState = getStateIndex spec y) :
    ∃ m2 tr, process spec H ev m = some (m2, tr) ∧
      currentStateId m2 = getStateIndex spec y := by
  subst hS
  refine ⟨H (spec.States.getD m.m_currentState 0) ev m,
    [Call.handle (spec.States.getD m.m_currentState 0) ev], ?_, hy⟩
  rw [process_eq_processFromState spec H ev m h]
  unfold processFromState
  rw [if_pos hh]

/-- C6 fixture: state 10 handles event type 7 by calling `enterState<20>`. -/
def c6Spec : FSMSpec :=
  { States := [10, 20]
    hasHandler := fun s e => s == 10 && e == 7
    hasEnter := fun _ => false }

def c6H : HandlerSem := fun _ _ m => (enterState c6Spec (fun _ m2 => m2) 20 m).1

def c6Ev : Event := { etype := 7, payload := 0 }

def c6M : Machine := { m_currentState := 0, m_states := [0, 0] }

/-- C6 witness: the handler of state 10 calls `enterState<20>` and the outer
`process` returns with the machine in state 20. -/
theorem claim6_witness :
    ∃ m2 tr, process c6Spec c6H c6Ev c6M = some (m2, tr) ∧
      currentStateId m2 = getStateIndex c6Spec 20 :=
  claim6_handler_transition_sticks c6Spec c6H c6Ev c6M 20 10
    (by decide) (by decide) (by decide) (by decide)

/-! ## C4 -/

/-- C4: the bounded-switch strategy (the one `process` uses for state counts
up to 256) and the function-pointer-table strategy (used above 256) are
externally equivalent: over the switch strategy's entire regime they give
identical results on every index, and on every in-range index both reduce to
the same per-index dispatch step; `process` is definitionally the selection
between them at the 256 threshold. -/
theorem claim4_switch_table_equiv (spec : FSMSpec) (H : HandlerSem) (ev : Event)
    (m : Machine) :
    (spec.States.length ≤ 256 →
      processSwitch spec H ev m = processTable spec H ev m) ∧
    (m.m_currentState < spec.States.length →
      processTable spec H ev m
        = some (processFromIndex spec H m.m_currentState ev m)) ∧
    (spec.States.length ≤ 256 → m.m_currentState < spec.States.length →
      processSwitch spec H ev m
        = some (processFromIndex spec H m.m_currentState ev m)) ∧
    process spec H ev m
      = if spec.States.length ≤ 256 then processSwitch spec H ev m
        else processTable spec H ev m := by
  refine ⟨?_, fun h => processTable_eq_of_lt spec H ev m h,
    fun h256 h => processSwitch_eq_of_lt spec H ev m h256 h, rfl⟩
  intro h256
  by_cases h : m.m_currentState < spec.States.length
  · rw [processSwitch_eq_of_lt spec H ev m h256 h, processTable_eq_of_lt spec H ev m h]
  · rw [processSwitch_eq_none spec H ev m h, processTable_eq_none spec H ev m h]

/-- C4 witness: on the fixture both strategies agree and match the per-index
dispatch step. -/
theorem claim4_witness :
    processSwitch exSpec exH exEv exM = processTable exSpec exH exEv exM ∧
    processTable exSpec exH exEv exM
      = some (processFromIndex exSpec exH exM.m_currentState exEv exM) :=
  ⟨(claim4_switch_table_equiv exSpec exH exEv exM).1 (by decide),
   (claim4_switch_table_equiv exSpec exH exEv exM).2.1 (by decide)⟩

/-! ## C7 -/

/-- C7: with the current-state index in range, dispatch is total and safe:
in the switch regime the index always lands on a case below the padded case
count whose guard holds (so the unreachable paddings and the unreachable
default are never taken and `process` completes), and the table has exactly
one entry per state so the lookup is in bounds. -/
theorem claim7_dispatch_total_safe (spec : FSMSpec) (H : HandlerSem) (ev : Event)
    (m : Machine) (h : m.m_currentState < spec.States.length) :
    (spec.States.length ≤ 256 →
      m.m_currentState < paddedSize spec.States.length ∧
      processSwitch spec H ev m
        = some (processFromIndex spec H m.m_currentState ev m)) ∧
    (dispatchTable spec ev.etype).length = spec.States.length ∧
    m.m_currentState < (dispatchTable spec ev.etype).length ∧
    (process spec H ev m).isSome = true := by
  have hlen : (dispatchTable spec ev.etype).length = spec.States.length := by
    simp [dispatchTable]
  refine ⟨?_, hlen, ?_, ?_⟩
  · intro h256
    exact ⟨Nat.lt_of_lt_of_le h (le_paddedSize h256),
      processSwitch_eq_of_lt spec H ev m h256 h⟩
  · omega
  · rw [process_eq_processFromState spec H ev m h]
    rfl

/-- C7 witness at the fixture. -/
theorem claim7_witness :
    (exSpec.States.length ≤ 256 →
      exM.m_currentState < paddedSize exSpec.States.length ∧
      processSwitch exSpec exH exEv exM
        = some (processFromIndex exSpec exH exM.m_currentState exEv exM)) ∧
    (dispatchTable exSpec exEv.etype).length = exSpec.States.length ∧
    exM.m_currentState < (dispatchTable exSpec exEv.etype).length ∧
    (process exSpec exH exEv exM).isSome = true :=
  claim7_dispatch_total_safe exSpec exH exEv exM (by decide)

/-! ## C8 -/

/-- C8: the engine alone mutates the index.  `process` either returns the
machine unchanged or exactly the machine the invoked handler produced — it
never writes the index itself — and, provided the user handler and enter hook
keep the index in range (they can only move it through nested `enterState`
calls, which do), every engine operation preserves `0 <= index < n`;
`enterState` itself always installs a valid ordinal before running the hook. -/
theorem claim8_index_invariant (spec : FSMSpec) (H : HandlerSem) (E : EnterSem)
    (ev : Event) (m : Machine) (x : TypeId)
    (h : m.m_currentState < spec.States.length)
    (hH : (H (spec.States.getD m.m_currentState 0) ev m).m_currentState
      < spec.States.length)
    (hx : elem_in_list_v x spec.States = true)
    (hE : ∀ m1, m1.m_currentState < spec.States.length →
      (E x m1).m_currentState < spec.States.length) :
    (∀ m2 tr, process spec H ev m = some (m2, tr) →
      m2.m_currentState < spec.States.length ∧
      (m2 = m ∨ m2 = H (spec.States.getD m.m_currentState 0) ev m)) ∧
    getStateIndex spec x < spec.States.length ∧
    (enterState spec E x m).1.m_currentState < spec.States.length := by
  have hidx : getStateIndex spec x < spec.States.length := by
    unfold getStateIndex
    exact findIdx_lt_length_of_mem ((elem_in_list_iff_mem x spec.States).mp hx)
  refine ⟨?_, hidx, ?_⟩
  · intro m2 tr h2
    rw [process_eq_processFromState spec H ev m h] at h2
    unfold processFromState at h2
    by_cases hh : spec.hasHandler (spec.States.getD m.m_currentState 0) ev.etype
    · rw [if_pos hh] at h2
      have h3 := Option.some.inj h2
      injection h3 with h4 h5
      subst h4
      exact ⟨hH, Or.inr rfl⟩
    · rw [if_neg hh] at h2
      have h3 := Option.some.inj h2
      injection h3 with h4 h5
      subst h4
      exact ⟨h, Or.inl rfl⟩
  · rw [enterState_fst]
    by_cases he : spec.hasEnter x
    · rw [if_pos he]
      exact hE _ hidx
    · rw [if_neg he]
      exact hidx

/-- C8 witness at the fixture (the hook semantics is the identity, which
trivially preserves the range). -/
theorem claim8_witness :
    (∀ m2 tr, process exSpec exH exEv exM = some (m2, tr) →
      m2.m_currentState < exSpec.States.length ∧
      (m2 = exM ∨ m2 = exH (exSpec.States.getD exM.m_currentState 0) exEv exM)) ∧
    getStateIndex exSpec 20 < exSpec.States.length ∧
    (enterState exSpec exE 20 exM).1.m_currentState < exSpec.States.length :=
  claim8_index_invariant exSpec exH exE exEv exM 20
    (by decide) (by decide) (by decide) (fun m1 h1 => h1)

end tiniest_fsm
